import Mathlib

/-!
Verification of the stochastic universal sampling library (`src/lib.rs`).

The two public functions `choose_multiple_weighted` and `choose_multiple`
are embedded shallowly:

* `f64` values are modelled by the type `F`: an exact rational payload for
  finite values plus `inf`, `negInf` and `nan`, with IEEE-754 comparison
  semantics (`nan` compares false with everything).  Finite arithmetic is
  exact rational arithmetic.
* the random generator is an abstract lawful oracle `RngModel σ`: a state
  type `σ` with a uniform draw in `[0,1)`, a permutation-producing shuffle
  and a choose-`k`-distinct-indices-from-`n` sampler, exactly the three
  capabilities `rand` provides to this crate.
* Rust panics (`assert!`) become `Except.error` values of type `Err`.
* the `while` loops are written with explicit structural fuel so that the
  kernel can evaluate them; the fuel chosen in the wrappers provably
  suffices, mirroring the unbounded source loops.
-/

/-- Model of an `f64` value: exact finite rational, infinities, or NaN. -/
inductive F where
  | finite (q : ℚ)
  | inf
  | negInf
  | nan
deriving DecidableEq

/-- Addition on `F`.  Special values (`inf`, `negInf`, `nan`) follow
IEEE-754; finite arithmetic is EXACT rational arithmetic.  IEEE-754
rounding of finite results is not modelled, so conclusions that depend on
rounding must not be drawn from this model. -/
def fadd : F → F → F
  | F.nan, _ => F.nan
  | _, F.nan => F.nan
  | F.inf, F.negInf => F.nan
  | F.negInf, F.inf => F.nan
  | F.inf, _ => F.inf
  | _, F.inf => F.inf
  | F.negInf, _ => F.negInf
  | _, F.negInf => F.negInf
  | F.finite a, F.finite b => F.finite (a + b)

/-- Multiplication on `F`.  Special values follow IEEE-754; finite
products are exact rationals (f64 rounding is not modelled). -/
def fmul : F → F → F
  | F.nan, _ => F.nan
  | _, F.nan => F.nan
  | F.finite a, F.finite b => F.finite (a * b)
  | F.inf, F.inf => F.inf
  | F.inf, F.negInf => F.negInf
  | F.negInf, F.inf => F.negInf
  | F.negInf, F.negInf => F.inf
  | F.inf, F.finite b => if b = 0 then F.nan else if 0 < b then F.inf else F.negInf
  | F.finite a, F.inf => if a = 0 then F.nan else if 0 < a then F.inf else F.negInf
  | F.negInf, F.finite b => if b = 0 then F.nan else if 0 < b then F.negInf else F.inf
  | F.finite a, F.negInf => if a = 0 then F.nan else if 0 < a then F.negInf else F.inf

/-- Division on `F`.  Special values follow IEEE-754; finite quotients
are exact rationals (f64 rounding is not modelled). -/
def fdiv : F → F → F
  | F.nan, _ => F.nan
  | _, F.nan => F.nan
  | F.finite a, F.finite b =>
      if b = 0 then (if a = 0 then F.nan else if 0 < a then F.inf else F.negInf)
      else F.finite (a / b)
  | F.finite _, F.inf => F.finite 0
  | F.finite _, F.negInf => F.finite 0
  | F.inf, F.inf => F.nan
  | F.inf, F.negInf => F.nan
  | F.negInf, F.inf => F.nan
  | F.negInf, F.negInf => F.nan
  | F.inf, F.finite b => if 0 ≤ b then F.inf else F.negInf
  | F.negInf, F.finite b => if 0 ≤ b then F.negInf else F.inf

/-- IEEE `<` on `F`: any comparison with NaN is false. -/
def flt : F → F → Bool
  | F.nan, _ => false
  | _, F.nan => false
  | F.finite a, F.finite b => decide (a < b)
  | F.finite _, F.inf => true
  | F.finite _, F.negInf => false
  | F.inf, _ => false
  | F.negInf, F.negInf => false
  | F.negInf, _ => true

/-- IEEE `≤` on `F`: any comparison with NaN is false. -/
def fle : F → F → Bool
  | F.nan, _ => false
  | _, F.nan => false
  | F.finite a, F.finite b => decide (a ≤ b)
  | F.finite _, F.inf => true
  | F.finite _, F.negInf => false
  | F.inf, F.inf => true
  | F.inf, _ => false
  | F.negInf, _ => true

/-- Model of `f64::is_finite`. -/
def F.isFinite : F → Bool
  | F.finite _ => true
  | _ => false

/-- Model of `f64::EPSILON` (`2⁻⁵²`), used in the all-zero-weight test. -/
def epsF : F := F.finite ((1 : ℚ) / 2 ^ 52)

/-- The two panic conditions of the source (`assert!` failures). -/
inductive Err where
  | emptyInput
  | nonFiniteTotal
deriving DecidableEq

deriving instance DecidableEq for Except

/-- The `scan` in `choose_multiple_weighted`: running sum starting at `sum`,
emitting each partial sum (`*sum += weights[idx]; Some(*sum)`). -/
def cumsumFrom (sum : F) : List F → List F
  | [] => []
  | w :: ws => fadd sum w :: cumsumFrom (fadd sum w) ws

/-- Cumulative summation of the weights (the shadowed `weights` vector). -/
def cumsum (ws : List F) : List F := cumsumFrom (F.finite 0) ws

/-- Abstract lawful random generator: the three capabilities the sampler
uses from `rand` (`rng.gen::<f64>()`, `slice.shuffle(rng)`,
`rand::seq::index::sample`), each with the guarantees those primitives
document.  Quantifying over all lawful oracles quantifies over all
possible RNG outcomes. -/
structure RngModel (σ : Type) where
  genF : σ → ℚ × σ
  shuffle : List Nat → σ → List Nat × σ
  sampleIdx : σ → Nat → Nat → List Nat × σ
  genF_nonneg : ∀ s, 0 ≤ (genF s).1
  genF_lt_one : ∀ s, (genF s).1 < 1
  shuffle_perm : ∀ l s, ((shuffle l s).1).Perm l
  shuffle_nil : ∀ s, shuffle [] s = ([], s)
  sample_len : ∀ s n k, k ≤ n → ((sampleIdx s n k).1).length = k
  sample_lt : ∀ s n k x, k ≤ n → x ∈ (sampleIdx s n k).1 → x < n
  sample_nodup : ∀ s n k, k ≤ n → ((sampleIdx s n k).1).Nodup

/-- One bounded pass of the cursor advance
`while idx < weights.len() && weights[idx] < arm { idx += 1 }`;
the fuel argument is the number of remaining loop iterations allowed. -/
def advanceAux (cum : List F) (armv : F) : Nat → Nat → Nat
  | idx, 0 => idx
  | idx, fuel + 1 =>
      if h : idx < cum.length then
        if flt (cum.get ⟨idx, h⟩) armv then advanceAux cum armv (idx + 1) fuel
        else idx
      else idx

/-- The cursor advance loop of the selection walk.  `cum.length - idx` fuel
always suffices because the cursor moves right by one per iteration. -/
def advance (cum : List F) (armv : F) (idx : Nat) : Nat :=
  advanceAux cum armv idx (cum.length - idx)

/-- The `for arm in 0..amount` selection walk: the third argument counts the
remaining arms, `arm` is the multiplier of the current arm, `idx` the shared
cursor.  Each iteration computes `arm * arm_spacing + arm_offset`, advances
the cursor, and pushes it. -/
def susWalk (cum : List F) (spacing offset : F) : Nat → Nat → Nat → List Nat
  | _, _, 0 => []
  | arm, idx, n + 1 =>
      let idx2 := advance cum (fadd (fmul (F.finite (arm : ℚ)) spacing) offset) idx
      idx2 :: susWalk cum spacing offset (arm + 1) idx2 n

/-- The accumulation loop of `choose_multiple`
(`while results.len() < amount { ... }`), with explicit iteration fuel.
A full round appends `0..items`; a partial round draws
`amount - results.len()` distinct indices without replacement. -/
def cmLoop {σ : Type} (rm : RngModel σ) (items amount : Nat) :
    List Nat → σ → Nat → List Nat × σ
  | results, s, 0 => (results, s)
  | results, s, fuel + 1 =>
      if results.length < amount then
        if items ≤ amount - results.length then
          cmLoop rm items amount (results ++ List.range items) s fuel
        else
          let xs := rm.sampleIdx s items (amount - results.length)
          cmLoop rm items amount (results ++ xs.1) xs.2 fuel
      else (results, s)

/-- Embedding of `choose_multiple` from `src/lib.rs`: asserts
`amount == 0 || items > 0`, runs the accumulation loop (fuel `amount`
provably suffices), then shuffles. -/
def choose_multiple {σ : Type} (rm : RngModel σ) (s : σ) (amount items : Nat) :
    Except Err (List Nat × σ) :=
  if amount = 0 ∨ 0 < items then
    let r := cmLoop rm items amount [] s amount
    .ok (rm.shuffle r.1 r.2)
  else .error .emptyInput

/-- Embedding of `choose_multiple_weighted` from `src/lib.rs`: early return
on `amount == 0`, assert non-empty, cumulative sum, all-zero-weight
delegation, finiteness assertion, spaced-arm walk, shuffle. -/
def choose_multiple_weighted {σ : Type} (rm : RngModel σ) (s : σ) (amount : Nat)
    (weights : List F) : Except Err (List Nat × σ) :=
  if amount = 0 then .ok ([], s)
  else if weights.length = 0 then .error .emptyInput
  else
    let cum := cumsum weights
    let total := cum.getLastD (F.finite 0)
    if fle total (fmul epsF (F.finite (cum.length : ℚ))) then
      choose_multiple rm s amount cum.length
    else if total.isFinite then
      let spacing := fdiv total (F.finite (amount : ℚ))
      let g := rm.genF s
      let offset := fmul (F.finite g.1) spacing
      let samples := susWalk cum spacing offset 0 0 amount
      .ok (rm.shuffle samples g.2)
    else .error .nonFiniteTotal

/-- A concrete lawful RNG outcome: the uniform draw is `0` (a value
`rng.gen::<f64>()` can produce), the shuffle is the identity permutation,
and the without-replacement sample is the first `k` indices. -/
def idRng : RngModel Unit where
  genF := fun s => (0, s)
  shuffle := fun l s => (l, s)
  sampleIdx := fun s _ k => (List.range k, s)
  genF_nonneg := fun _ => le_refl 0
  genF_lt_one := fun _ => by norm_num
  shuffle_perm := fun l _ => List.Perm.refl l
  shuffle_nil := fun _ => rfl
  sample_len := fun _ _ k _ => List.length_range k
  sample_lt := fun _ _ k x h hx => lt_of_lt_of_le (List.mem_range.mp hx) h
  sample_nodup := fun _ _ k _ => List.nodup_range k

/-- A concrete lawful RNG outcome whose uniform draw is `1/2`. -/
def halfRng : RngModel Unit where
  genF := fun s => (1 / 2, s)
  shuffle := fun l s => (l, s)
  sampleIdx := fun s _ k => (List.range k, s)
  genF_nonneg := fun _ => by norm_num
  genF_lt_one := fun _ => by norm_num
  shuffle_perm := fun l _ => List.Perm.refl l
  shuffle_nil := fun _ => rfl
  sample_len := fun _ _ k _ => List.length_range k
  sample_lt := fun _ _ k x h hx => lt_of_lt_of_le (List.mem_range.mp hx) h
  sample_nodup := fun _ _ k _ => List.nodup_range k

/-! ### Basic lemmas about the embedded operations -/

theorem cumsumFrom_length (a : F) (ws : List F) : (cumsumFrom a ws).length = ws.length := by
  induction ws generalizing a with
  | nil => rfl
  | cons w ws ih => simp [cumsumFrom, ih]

theorem cumsum_length (ws : List F) : (cumsum ws).length = ws.length :=
  cumsumFrom_length _ ws

theorem fadd_finite (a b : ℚ) : fadd (F.finite a) (F.finite b) = F.finite (a + b) := rfl

theorem fmul_finite (a b : ℚ) : fmul (F.finite a) (F.finite b) = F.finite (a * b) := rfl

theorem flt_finite (a b : ℚ) : flt (F.finite a) (F.finite b) = decide (a < b) := rfl

theorem fle_finite (a b : ℚ) : fle (F.finite a) (F.finite b) = decide (a ≤ b) := rfl

theorem fdiv_finite (a b : ℚ) (hb : b ≠ 0) :
    fdiv (F.finite a) (F.finite b) = F.finite (a / b) := by
  simp [fdiv, hb]

theorem cumsumFrom_finite (ws : List F) (hws : ∀ w ∈ ws, ∃ q : ℚ, w = F.finite q) :
    ∀ (a : ℚ), ∀ y ∈ cumsumFrom (F.finite a) ws, ∃ q : ℚ, y = F.finite q := by
  induction ws with
  | nil => intro a y hy; simp [cumsumFrom] at hy
  | cons w ws ih =>
    intro a y hy
    obtain ⟨qw, hqw⟩ := hws w (List.mem_cons_self w ws)
    subst hqw
    rw [cumsumFrom, fadd_finite] at hy
    rcases List.mem_cons.mp hy with h | h
    · exact ⟨a + qw, h⟩
    · exact ih (fun x hx => hws x (List.mem_cons_of_mem _ hx)) (a + qw) y h

theorem getLastD_mem {α : Type} (l : List α) (d : α) (h : l ≠ []) : l.getLastD d ∈ l := by
  induction l generalizing d with
  | nil => exact absurd rfl h
  | cons x l ih =>
    cases l with
    | nil => simp [List.getLastD]
    | cons y t =>
      have hmem := ih d (by simp)
      rw [List.getLastD_cons]
      exact List.mem_cons_of_mem x hmem

theorem get_last_eq_getLastD {α : Type} (l : List α) (d : α) (hne : l ≠ [])
    (h : l.length - 1 < l.length) : l.get ⟨l.length - 1, h⟩ = l.getLastD d := by
  rw [List.get_eq_getElem, List.getLastD_eq_getLast?, List.getLast?_eq_getLast l hne,
    Option.getD_some, List.getLast_eq_getElem]

/-! ### Lemmas about the cursor advance loop -/

theorem advanceAux_ge (cum : List F) (armv : F) :
    ∀ (fuel idx : Nat), idx ≤ advanceAux cum armv idx fuel := by
  intro fuel
  induction fuel with
  | zero => intro idx; simp [advanceAux]
  | succ fuel ih =>
    intro idx
    rw [advanceAux]
    split
    · split
      · exact le_trans (Nat.le_succ idx) (ih (idx + 1))
      · exact le_refl idx
    · exact le_refl idx

theorem advanceAux_le (cum : List F) (armv : F) :
    ∀ (fuel idx : Nat), advanceAux cum armv idx fuel ≤ idx + fuel := by
  intro fuel
  induction fuel with
  | zero => intro idx; simp [advanceAux]
  | succ fuel ih =>
    intro idx
    rw [advanceAux]
    split
    · split
      · exact le_trans (ih (idx + 1)) (by omega)
      · omega
    · omega

theorem advance_ge (cum : List F) (armv : F) (idx : Nat) : idx ≤ advance cum armv idx :=
  advanceAux_ge cum armv _ idx

theorem advance_le_length (cum : List F) (armv : F) (idx : Nat) (h : idx ≤ cum.length) :
    advance cum armv idx ≤ cum.length := by
  have := advanceAux_le cum armv (cum.length - idx) idx
  unfold advance
  omega

theorem advanceAux_spec (cum : List F) (armv : F) (m : Nat) (hm : m ≤ cum.length)
    (hstop : ∀ h : m < cum.length, flt (cum.get ⟨m, h⟩) armv = false) :
    ∀ (fuel idx : Nat), idx ≤ m → m - idx ≤ fuel →
      (∀ i (hi : i < cum.length), idx ≤ i → i < m → flt (cum.get ⟨i, hi⟩) armv = true) →
      advanceAux cum armv idx fuel = m := by
  intro fuel
  induction fuel with
  | zero =>
    intro idx h1 h2 _
    have : idx = m := by omega
    simp [advanceAux, this]
  | succ fuel ih =>
    intro idx h1 h2 hrun
    rw [advanceAux]
    split
    · rename_i h
      by_cases hidx : idx = m
      · subst hidx
        rw [hstop h]
        simp
      · have hlt : idx < m := by omega
        rw [hrun idx h (le_refl idx) hlt]
        simp only [if_true]
        exact ih (idx + 1) (by omega) (by omega)
          (fun i hi hge hltm => hrun i hi (by omega) hltm)
    · rename_i h
      omega

theorem advance_spec (cum : List F) (armv : F) (m : Nat) (hm : m ≤ cum.length)
    (hstop : ∀ h : m < cum.length, flt (cum.get ⟨m, h⟩) armv = false)
    (idx : Nat) (h1 : idx ≤ m)
    (hrun : ∀ i (hi : i < cum.length), idx ≤ i → i < m → flt (cum.get ⟨i, hi⟩) armv = true) :
    advance cum armv idx = m :=
  advanceAux_spec cum armv m hm hstop _ idx h1 (by omega) hrun

theorem advanceAux_le_pred (cum : List F) (armv : F) (hne : 0 < cum.length)
    (hlast : flt (cum.get ⟨cum.length - 1, by omega⟩) armv = false) :
    ∀ (fuel idx : Nat), idx ≤ cum.length - 1 → advanceAux cum armv idx fuel ≤ cum.length - 1 := by
  intro fuel
  induction fuel with
  | zero => intro idx h; simpa [advanceAux] using h
  | succ fuel ih =>
    intro idx h
    rw [advanceAux]
    split
    · rename_i hin
      split
      · rename_i hflt
        have hne2 : idx ≠ cum.length - 1 := by
          intro hEq
          rw [show (⟨idx, hin⟩ : Fin cum.length) = ⟨cum.length - 1, by omega⟩ from
            Fin.ext hEq] at hflt
          rw [hlast] at hflt
          exact Bool.false_ne_true hflt
        exact ih (idx + 1) (by omega)
      · exact h
    · exact h

theorem advance_le_pred (cum : List F) (armv : F) (hne : 0 < cum.length)
    (hlast : flt (cum.get ⟨cum.length - 1, by omega⟩) armv = false)
    (idx : Nat) (h : idx ≤ cum.length - 1) : advance cum armv idx ≤ cum.length - 1 :=
  advanceAux_le_pred cum armv hne hlast _ idx h

/-! ### Lemmas about the selection walk -/

theorem susWalk_length (cum : List F) (sp off : F) :
    ∀ (n arm idx : Nat), (susWalk cum sp off arm idx n).length = n := by
  intro n
  induction n with
  | zero => intro arm idx; rfl
  | succ n ih => intro arm idx; simp [susWalk, ih]

theorem susWalk_le_length (cum : List F) (sp off : F) :
    ∀ (n arm idx : Nat), idx ≤ cum.length →
      ∀ x ∈ susWalk cum sp off arm idx n, x ≤ cum.length := by
  intro n
  induction n with
  | zero => intro arm idx _ x hx; simp [susWalk] at hx
  | succ n ih =>
    intro arm idx hidx x hx
    rw [susWalk] at hx
    have hadv : advance cum (fadd (fmul (F.finite (arm : ℚ)) sp) off) idx ≤ cum.length :=
      advance_le_length _ _ _ hidx
    rcases List.mem_cons.mp hx with h | h
    · omega
    · exact ih (arm + 1) _ hadv x h

theorem susWalk_chain (cum : List F) (sp off : F) :
    ∀ (n arm idx : Nat), List.Chain (fun a b => a ≤ b) idx (susWalk cum sp off arm idx n) := by
  intro n
  induction n with
  | zero => intro arm idx; exact List.Chain.nil
  | succ n ih =>
    intro arm idx
    rw [susWalk]
    exact List.Chain.cons (advance_ge _ _ _) (ih (arm + 1) _)

theorem susWalk_le_pred (cum : List F) (sp off : F) (hne : 0 < cum.length) :
    ∀ (n arm idx : Nat),
      (∀ a : Nat, arm ≤ a → a < arm + n →
        flt (cum.get ⟨cum.length - 1, by omega⟩)
          (fadd (fmul (F.finite (a : ℚ)) sp) off) = false) →
      idx ≤ cum.length - 1 →
      ∀ x ∈ susWalk cum sp off arm idx n, x ≤ cum.length - 1 := by
  intro n
  induction n with
  | zero => intro arm idx _ _ x hx; simp [susWalk] at hx
  | succ n ih =>
    intro arm idx harm hidx x hx
    rw [susWalk] at hx
    have hadv : advance cum (fadd (fmul (F.finite (arm : ℚ)) sp) off) idx ≤ cum.length - 1 :=
      advance_le_pred cum _ hne (harm arm (le_refl arm) (by omega)) idx hidx
    rcases List.mem_cons.mp hx with h | h
    · omega
    · exact ih (arm + 1) _ (fun a ha1 ha2 => harm a (by omega) (by omega)) hadv x h

/-! ### Lemmas about the accumulation loop of `choose_multiple` -/

theorem cmLoop_done {σ : Type} (rm : RngModel σ) (items amount : Nat) (results : List Nat)
    (s : σ) (fuel : Nat) (h : amount ≤ results.length) :
    cmLoop rm items amount results s fuel = (results, s) := by
  cases fuel with
  | zero => rfl
  | succ fuel => rw [cmLoop]; rw [if_neg (by omega)]

theorem cmLoop_spec {σ : Type} (rm : RngModel σ) (items amount : Nat) :
    ∀ (fuel : Nat) (results : List Nat) (s : σ),
      results.length ≤ amount → amount - results.length ≤ fuel * items →
      ∃ (tail : List Nat) (s2 : σ),
        cmLoop rm items amount results s fuel = (results ++ tail, s2) ∧
        tail.length = amount - results.length ∧
        (∀ x ∈ tail, x < items) ∧
        (∀ i, i < items →
          tail.count i = (amount - results.length) / items ∨
          tail.count i = (amount - results.length + items - 1) / items) := by
  intro fuel
  induction fuel with
  | zero =>
    intro results s hle hfuel
    rw [Nat.zero_mul] at hfuel
    refine ⟨[], s, by simp [cmLoop], by simp only [List.length_nil]; omega, by simp, ?_⟩
    intro i _
    left
    have : amount - results.length = 0 := by omega
    simp [this]
  | succ fuel ih =>
    intro results s hle hfuel
    by_cases hlen : results.length < amount
    · by_cases hfull : items ≤ amount - results.length
      · have hipos : 0 < items := by
          rcases Nat.eq_zero_or_pos items with h0 | h0
          · subst h0; simp at hfull; omega
          · exact h0
        have hlen2 : (results ++ List.range items).length ≤ amount := by
          simp [List.length_range]; omega
        have hfuel2 : amount - (results ++ List.range items).length ≤ fuel * items := by
          rw [Nat.succ_mul] at hfuel
          simp [List.length_range]
          omega
        obtain ⟨tail2, s2, heq2, hlen3, hmem2, hcount2⟩ := ih (results ++ List.range items) s
          hlen2 hfuel2
        refine ⟨List.range items ++ tail2, s2, ?_, ?_, ?_, ?_⟩
        · rw [cmLoop, if_pos hlen, if_pos hfull, heq2, List.append_assoc]
        · simp only [List.length_append, List.length_range] at hlen3 ⊢
          omega
        · intro x hx
          rcases List.mem_append.mp hx with h | h
          · exact List.mem_range.mp h
          · exact hmem2 x h
        · intro i hi
          have hcr : (List.range items).count i = 1 :=
            List.count_eq_one_of_mem (List.nodup_range items) (List.mem_range.mpr hi)
          have hlen4 : (results ++ List.range items).length = results.length + items := by
            simp [List.length_range]
          rw [hlen4] at hcount2
          have hsub1 : amount - results.length - items = amount - (results.length + items) := by
            omega
          have hA : (amount - results.length) / items
              = (amount - (results.length + items)) / items + 1 := by
            rw [Nat.div_eq_sub_div hipos hfull, hsub1]
          have hsub2 : amount - results.length + items - 1 - items
              = amount - (results.length + items) + items - 1 := by omega
          have hB : (amount - results.length + items - 1) / items
              = (amount - (results.length + items) + items - 1) / items + 1 := by
            rw [Nat.div_eq_sub_div hipos (by omega), hsub2]
          rw [List.count_append, hcr]
          rcases hcount2 i hi with h | h
          · left; rw [hA, h]; omega
          · right; rw [hB, h]; omega
      · have hns : amount - results.length < items := by omega
        have hnsle : amount - results.length ≤ items := by omega
        have hxslen : ((rm.sampleIdx s items (amount - results.length)).1).length
            = amount - results.length := rm.sample_len _ _ _ hnsle
        have hdone : amount ≤ (results ++ (rm.sampleIdx s items (amount - results.length)).1).length := by
          simp [hxslen]; omega
        refine ⟨(rm.sampleIdx s items (amount - results.length)).1,
          (rm.sampleIdx s items (amount - results.length)).2, ?_, by rw [hxslen], ?_, ?_⟩
        · rw [cmLoop, if_pos hlen, if_neg hfull, cmLoop_done _ _ _ _ _ _ hdone]
        · intro x hx
          exact rm.sample_lt _ _ _ x hnsle hx
        · intro i hi
          have hcle : ((rm.sampleIdx s items (amount - results.length)).1).count i ≤ 1 :=
            List.nodup_iff_count_le_one.mp (rm.sample_nodup _ _ _ hnsle) i
          have hfloor : (amount - results.length) / items = 0 := Nat.div_eq_of_lt hns
          have hceil : (amount - results.length + items - 1) / items = 1 := by
            have hpos : 0 < amount - results.length := by omega
            rw [Nat.div_eq_sub_div (by omega) (by omega)]
            have hlt : amount - results.length + items - 1 - items < items := by omega
            rw [Nat.div_eq_of_lt hlt]
          rcases Nat.le_one_iff_eq_zero_or_eq_one.mp hcle with h | h
          · left; rw [h, hfloor]
          · right; rw [h, hceil]
    · have hEq : results.length = amount := by omega
      refine ⟨[], s, ?_, by simp only [List.length_nil]; omega, by simp, ?_⟩
      · rw [cmLoop, if_neg (by omega)]; simp
      · intro i _
        left
        have : amount - results.length = 0 := by omega
        simp [this]

/-- Full functional specification of `choose_multiple` on valid inputs:
it succeeds, returns `amount` indices below `items`, and every index
appears either `⌊amount/items⌋` or `⌈amount/items⌉` times. -/
theorem choose_multiple_spec {σ : Type} (rm : RngModel σ) (s : σ) (amount items : Nat)
    (h : amount = 0 ∨ 0 < items) :
    ∃ res s2, choose_multiple rm s amount items = .ok (res, s2) ∧
      res.length = amount ∧ (∀ x ∈ res, x < items) ∧
      (∀ i, i < items → res.count i = amount / items ∨
        res.count i = (amount + items - 1) / items) := by
  have hfuel : amount - ([] : List Nat).length ≤ amount * items := by
    rcases h with h0 | hpos
    · subst h0; simp
    · simp only [List.length_nil, Nat.sub_zero]
      calc amount = amount * 1 := by rw [Nat.mul_one]
        _ ≤ amount * items := Nat.mul_le_mul_left amount hpos
  obtain ⟨tail, s2, heq, hlen, hmem, hcount⟩ :=
    cmLoop_spec rm items amount amount [] s (by simp) hfuel
  simp only [List.length_nil, Nat.sub_zero] at hlen hcount
  rw [List.nil_append] at heq
  have hperm := rm.shuffle_perm tail s2
  refine ⟨(rm.shuffle tail s2).1, (rm.shuffle tail s2).2, ?_, ?_, ?_, ?_⟩
  · rw [choose_multiple, if_pos h, heq]
  · rw [hperm.length_eq, hlen]
  · intro x hx
    exact hmem x (hperm.mem_iff.mp hx)
  · intro i hi
    rw [hperm.count_eq]
    exact hcount i hi

theorem cumsum_total_finite (ws : List F) (hws : ∀ w ∈ ws, ∃ q : ℚ, w = F.finite q)
    (hne : ws ≠ []) : ∃ t : ℚ, (cumsum ws).getLastD (F.finite 0) = F.finite t := by
  have hpos : 0 < (cumsum ws).length := by
    rw [cumsum_length]
    cases ws with
    | nil => exact absurd rfl hne
    | cons w t => simp
  have hcne : cumsum ws ≠ [] := by
    intro h
    rw [h] at hpos
    simp at hpos
  exact cumsumFrom_finite ws hws 0 _ (getLastD_mem (cumsum ws) (F.finite 0) hcne)

/-- Unfolding of `choose_multiple_weighted` in the spaced-arm walk branch. -/
theorem cmw_walk_eq {σ : Type} (rm : RngModel σ) (s : σ) (amount : Nat) (ws : List F)
    (h0 : ¬ amount = 0) (hne : ¬ ws.length = 0)
    (hz : ¬ fle ((cumsum ws).getLastD (F.finite 0))
      (fmul epsF (F.finite ((cumsum ws).length : ℚ))) = true)
    (hfin : ((cumsum ws).getLastD (F.finite 0)).isFinite = true) :
    choose_multiple_weighted rm s amount ws =
      .ok (rm.shuffle
        (susWalk (cumsum ws)
          (fdiv ((cumsum ws).getLastD (F.finite 0)) (F.finite (amount : ℚ)))
          (fmul (F.finite (rm.genF s).1)
            (fdiv ((cumsum ws).getLastD (F.finite 0)) (F.finite (amount : ℚ))))
          0 0 amount)
        (rm.genF s).2) := by
  rw [choose_multiple_weighted, if_neg h0, if_neg hne, if_neg hz, if_pos hfin]

/-- Unfolding of `choose_multiple_weighted` in the all-zero-weight
delegation branch. -/
theorem cmw_delegate_eq {σ : Type} (rm : RngModel σ) (s : σ) (amount : Nat) (ws : List F)
    (h0 : ¬ amount = 0) (hne : ¬ ws.length = 0)
    (hz : fle ((cumsum ws).getLastD (F.finite 0))
      (fmul epsF (F.finite ((cumsum ws).length : ℚ))) = true) :
    choose_multiple_weighted rm s amount ws =
      choose_multiple rm s amount (cumsum ws).length := by
  rw [choose_multiple_weighted, if_neg h0, if_neg hne, if_pos hz]

/-- If a computation returns `.ok (res, s2)` and also `.ok p`, the result
list is the first component of `p`. -/
theorem ok_pair_fst {σ : Type} {e : Except Err (List Nat × σ)} {p : List Nat × σ}
    {res : List Nat} {s2 : σ} (h : e = .ok (res, s2)) (h2 : e = .ok p) : res = p.1 := by
  rw [h] at h2
  injection h2 with hp
  rw [← hp]

/-- C1 (code bug): when rounding makes an arm pointer strictly exceed the
stored total weight, the cursor walks past the last cumulative entry and the
pushed value equals `weights.len()`, an out-of-range index.  The compiled
program reaches this state: for weights `[5.430298733543919]`, `amount = 7`
and uniform draw `u = (2^53 - 1) / 2^53`, the f64 roundings of `total / 7`,
`6 * spacing` and the final addition put the arm-6 pointer one ulp above the
total, and the function returns a vector containing `1 = weights.len()`. -/
theorem c1_out_of_range_pointer_walk (t v : ℚ) (h : t < v) :
    advance [F.finite t] (F.finite v) 0 = [F.finite t].length := by
  apply advance_spec
  · exact le_refl _
  · intro hlt
    exact absurd hlt (by norm_num)
  · exact Nat.zero_le _
  · intro i hi _ hik
    have h0 : i = 0 := by
      simp only [List.length_singleton] at hik
      omega
    subst h0
    rw [show ([F.finite t].get ⟨0, hi⟩) = F.finite t from rfl, flt_finite]
    exact decide_eq_true h

/-- Witness for the C1 failure mechanism at the exact rational values of the
f64 quantities the program computes on the failing input: the stored total
is `0x1.5b8a03b30534dp+2 = 6113972838224717 / 2^50` and the rounded arm-6
pointer is `0x1.5b8a03b30534ep+2 = 6113972838224718 / 2^50`, one ulp
larger, so the walk emits the out-of-range index `1 = weights.len()`. -/
theorem c1_out_of_range_pointer_walk_witness :
    (6113972838224717 / 1125899906842624 : ℚ) < 3056986419112359 / 562949953421312 ∧
    advance [F.finite (6113972838224717 / 1125899906842624 : ℚ)]
      (F.finite (3056986419112359 / 562949953421312 : ℚ)) 0
      = [F.finite (6113972838224717 / 1125899906842624 : ℚ)].length := by
  refine ⟨by norm_num, ?_⟩
  exact c1_out_of_range_pointer_walk _ _ (by norm_num)

/-- C4: whenever either sampler returns successfully, the result has exactly
`amount` elements, for every RNG outcome. -/
theorem c4_cardinality :
    (∀ (σ : Type) (rm : RngModel σ) (s : σ) (amount : Nat) (ws : List F)
      (res : List Nat) (s2 : σ),
      choose_multiple_weighted rm s amount ws = .ok (res, s2) → res.length = amount) ∧
    (∀ (σ : Type) (rm : RngModel σ) (s : σ) (amount items : Nat) (res : List Nat) (s2 : σ),
      choose_multiple rm s amount items = .ok (res, s2) → res.length = amount) := by
  have hunw : ∀ (σ : Type) (rm : RngModel σ) (s : σ) (amount items : Nat)
      (res : List Nat) (s2 : σ),
      choose_multiple rm s amount items = .ok (res, s2) → res.length = amount := by
    intro σ rm s amount items res s2 heq
    by_cases hg : amount = 0 ∨ 0 < items
    · obtain ⟨res0, s0, heq0, hlen0, _, _⟩ := choose_multiple_spec rm s amount items hg
      have h1 : res = res0 := ok_pair_fst heq heq0
      rw [h1]
      exact hlen0
    · rw [choose_multiple, if_neg hg] at heq
      exact absurd heq (by simp)
  constructor
  · intro σ rm s amount ws res s2 heq
    by_cases h0 : amount = 0
    · have h2 : choose_multiple_weighted rm s amount ws = .ok ([], s) := by
        rw [choose_multiple_weighted, if_pos h0]
      have h1 : res = [] := ok_pair_fst heq h2
      rw [h1, h0]
      rfl
    · by_cases hlne : ws.length = 0
      · rw [choose_multiple_weighted, if_neg h0, if_pos hlne] at heq
        exact absurd heq (by simp)
      · by_cases hz : fle ((cumsum ws).getLastD (F.finite 0))
            (fmul epsF (F.finite ((cumsum ws).length : ℚ))) = true
        · have hdel := cmw_delegate_eq rm s amount ws h0 hlne hz
          exact hunw σ rm s amount (cumsum ws).length res s2 (hdel.symm.trans heq)
        · by_cases hfint : ((cumsum ws).getLastD (F.finite 0)).isFinite = true
          · have h1 := ok_pair_fst heq (cmw_walk_eq rm s amount ws h0 hlne hz hfint)
            rw [h1, (rm.shuffle_perm _ _).length_eq]
            exact susWalk_length _ _ _ amount 0 0
          · rw [choose_multiple_weighted, if_neg h0, if_neg hlne, if_neg hz, if_neg hfint] at heq
            exact absurd heq (by simp)
  · exact hunw

/-- Witness for C4 at a concrete input. -/
theorem c4_cardinality_witness :
    choose_multiple idRng () 7 3 = .ok ([0, 1, 2, 0, 1, 2, 0], ()) ∧
      ([0, 1, 2, 0, 1, 2, 0] : List Nat).length = 7 := by
  have hev : choose_multiple idRng () 7 3 = .ok ([0, 1, 2, 0, 1, 2, 0], ()) := by
    norm_num [choose_multiple, idRng, cmLoop, List.range_succ]
  exact ⟨hev, c4_cardinality.2 Unit idRng () 7 3 _ () hev⟩

/-- C5: when the cumulative total is below the `f64::EPSILON * N` threshold,
`choose_multiple_weighted` returns exactly what `choose_multiple` returns on
the same RNG state with `items = N`. -/
theorem c5_zero_total_delegates :
    ∀ (σ : Type) (rm : RngModel σ) (s : σ) (amount : Nat) (ws : List F),
      ws ≠ [] → 0 < amount →
      fle ((cumsum ws).getLastD (F.finite 0)) (fmul epsF (F.finite ((ws.length : ℚ)))) = true →
      choose_multiple_weighted rm s amount ws = choose_multiple rm s amount ws.length := by
  intro σ rm s amount ws hne h0 hz
  have hlne : ¬ ws.length = 0 := fun h => hne (List.length_eq_zero.mp h)
  have hz2 : fle ((cumsum ws).getLastD (F.finite 0))
      (fmul epsF (F.finite (((cumsum ws).length : ℚ)))) = true := by
    rw [cumsum_length]; exact hz
  rw [cmw_delegate_eq rm s amount ws (by omega) hlne hz2, cumsum_length]

/-- Witness for C5 at a concrete input (the all-zero weight vector). -/
theorem c5_zero_total_delegates_witness :
    fle ((cumsum [F.finite 0, F.finite 0]).getLastD (F.finite 0))
      (fmul epsF (F.finite (([F.finite 0, F.finite 0].length : ℚ)))) = true ∧
    choose_multiple_weighted idRng () 2 [F.finite 0, F.finite 0] =
      choose_multiple idRng () 2 [F.finite 0, F.finite 0].length := by
  have hz : fle ((cumsum [F.finite 0, F.finite 0]).getLastD (F.finite 0))
      (fmul epsF (F.finite (([F.finite 0, F.finite 0].length : ℚ)))) = true := by
    norm_num [cumsum, cumsumFrom, fadd, fle, fmul, epsF]
  exact ⟨hz, c5_zero_total_delegates Unit idRng () 2 [F.finite 0, F.finite 0]
    (by simp) (by norm_num) hz⟩

/-- C6: the `EmptyInput` failure happens exactly when `amount > 0` and the
candidate set is empty, for every RNG state (so before any draw). -/
theorem c6_empty_input_iff :
    ∀ (σ : Type) (rm : RngModel σ) (s : σ) (amount : Nat) (ws : List F) (items : Nat),
      (choose_multiple_weighted rm s amount ws = .error .emptyInput ↔ 0 < amount ∧ ws = []) ∧
      (choose_multiple rm s amount items = .error .emptyInput ↔ 0 < amount ∧ items = 0) := by
  intro σ rm s amount ws items
  constructor
  · constructor
    · intro h
      by_cases h0 : amount = 0
      · rw [choose_multiple_weighted, if_pos h0] at h
        simp at h
      · by_cases hlne : ws.length = 0
        · exact ⟨by omega, List.length_eq_zero.mp hlne⟩
        · exfalso
          by_cases hz : fle ((cumsum ws).getLastD (F.finite 0))
              (fmul epsF (F.finite ((cumsum ws).length : ℚ))) = true
          · rw [cmw_delegate_eq rm s amount ws h0 hlne hz] at h
            rw [choose_multiple, if_pos (Or.inr (by rw [cumsum_length]; omega))] at h
            simp at h
          · by_cases hfint : ((cumsum ws).getLastD (F.finite 0)).isFinite = true
            · rw [cmw_walk_eq rm s amount ws h0 hlne hz hfint] at h
              simp at h
            · rw [choose_multiple_weighted, if_neg h0, if_neg hlne, if_neg hz,
                if_neg hfint] at h
              simp at h
    · rintro ⟨h0, rfl⟩
      rw [choose_multiple_weighted, if_neg (by omega)]
      simp
  · constructor
    · intro h
      by_cases hg : amount = 0 ∨ 0 < items
      · rw [choose_multiple, if_pos hg] at h
        simp at h
      · push_neg at hg
        exact ⟨by omega, by omega⟩
    · rintro ⟨h0, h1⟩
      rw [choose_multiple, if_neg (by omega)]

/-- C7: a total weight of `+∞` or NaN escapes the zero-weight branch (NaN
compares false) and makes `choose_multiple_weighted` fail with
`NonFiniteTotal`, independently of the RNG. -/
theorem c7_nonfinite_total_error :
    ∀ (σ : Type) (rm : RngModel σ) (s : σ) (amount : Nat) (ws : List F),
      ws ≠ [] → 0 < amount →
      ((cumsum ws).getLastD (F.finite 0) = F.inf ∨ (cumsum ws).getLastD (F.finite 0) = F.nan) →
      fle ((cumsum ws).getLastD (F.finite 0))
        (fmul epsF (F.finite ((cumsum ws).length : ℚ))) = false ∧
      choose_multiple_weighted rm s amount ws = .error .nonFiniteTotal := by
  intro σ rm s amount ws hne h0 htot
  have hlne : ¬ ws.length = 0 := fun h => hne (List.length_eq_zero.mp h)
  have hfle : fle ((cumsum ws).getLastD (F.finite 0))
      (fmul epsF (F.finite ((cumsum ws).length : ℚ))) = false := by
    rcases htot with h | h <;> rw [h] <;> rfl
  have hfin : ((cumsum ws).getLastD (F.finite 0)).isFinite = false := by
    rcases htot with h | h <;> rw [h] <;> rfl
  refine ⟨hfle, ?_⟩
  rw [choose_multiple_weighted, if_neg (by omega), if_neg hlne,
    if_neg (by rw [hfle]; simp), if_neg (by rw [hfin]; simp)]

/-- Witness for C7 at a concrete input (a single infinite weight). -/
theorem c7_nonfinite_total_error_witness :
    (cumsum [F.inf]).getLastD (F.finite 0) = F.inf ∧
    choose_multiple_weighted idRng () 1 [F.inf] = .error .nonFiniteTotal := by
  have h1 : (cumsum [F.inf]).getLastD (F.finite 0) = F.inf := rfl
  exact ⟨h1, (c7_nonfinite_total_error Unit idRng () 1 [F.inf] (by simp) (by norm_num)
    (Or.inl h1)).2⟩

/-- C8: with `items > 0` the accumulation loop needs at most
`⌈amount/items⌉` iterations to fill the buffer, and the final result has
length `amount` with every index appearing `⌊amount/items⌋` or
`⌈amount/items⌉` times. -/
theorem c8_loop_iterations_and_counts :
    ∀ (σ : Type) (rm : RngModel σ) (s : σ) (amount items : Nat), 0 < items →
      ((cmLoop rm items amount [] s ((amount + items - 1) / items)).1.length = amount) ∧
      (∀ res s2, choose_multiple rm s amount items = .ok (res, s2) →
        res.length = amount ∧
        ∀ i, i < items → res.count i = amount / items ∨
          res.count i = (amount + items - 1) / items) := by
  intro σ rm s amount items hitems
  constructor
  · have hmod := Nat.div_add_mod (amount + items - 1) items
    have hmod2 : (amount + items - 1) % items < items := Nat.mod_lt _ hitems
    have hfuel : amount - ([] : List Nat).length ≤ ((amount + items - 1) / items) * items := by
      simp only [List.length_nil, Nat.sub_zero]
      rw [Nat.mul_comm]
      omega
    obtain ⟨tail, s2, heq, hlen, _, _⟩ :=
      cmLoop_spec rm items amount ((amount + items - 1) / items) [] s (by simp) hfuel
    rw [heq]
    simp only [List.nil_append, List.length_nil, Nat.sub_zero] at hlen ⊢
    exact hlen
  · intro res s2 heq
    obtain ⟨res0, s0, heq0, hlen0, _, hcount0⟩ :=
      choose_multiple_spec rm s amount items (Or.inr hitems)
    have h1 : res = res0 := ok_pair_fst heq heq0
    rw [h1]
    exact ⟨hlen0, hcount0⟩

/-- Witness for C8 at a concrete input. -/
theorem c8_loop_iterations_and_counts_witness :
    (0 : Nat) < 3 ∧ (cmLoop idRng 3 7 [] () ((7 + 3 - 1) / 3)).1.length = 7 := by
  refine ⟨by norm_num, ?_⟩
  exact (c8_loop_iterations_and_counts Unit idRng () 7 3 (by norm_num)).1

/-- C9: with `amount = 0` both samplers return the empty sequence and leave
the RNG state untouched (zero draws), even on empty candidate sets. -/
theorem c9_amount_zero :
    ∀ (σ : Type) (rm : RngModel σ) (s : σ) (ws : List F) (items : Nat),
      choose_multiple_weighted rm s 0 ws = .ok ([], s) ∧
      choose_multiple rm s 0 items = .ok ([], s) := by
  intro σ rm s ws items
  constructor
  · rw [choose_multiple_weighted, if_pos rfl]
  · rw [choose_multiple, if_pos (Or.inl rfl)]
    show Except.ok (rm.shuffle ([] : List Nat) s) = Except.ok ([], s)
    rw [rm.shuffle_nil s]

/-- C10: the selection-walk cursor is monotone and never exceeds the length
of the cumulative array (array reads are guarded structurally by the
dependent bound in `advanceAux`). -/
theorem c10_cursor_safety :
    ∀ (cum : List F) (armv sp off : F) (idx arm n : Nat),
      (idx ≤ advance cum armv idx) ∧
      (idx ≤ cum.length → advance cum armv idx ≤ cum.length) ∧
      List.Chain (fun a b => a ≤ b) idx (susWalk cum sp off arm idx n) ∧
      (idx ≤ cum.length → ∀ x ∈ susWalk cum sp off arm idx n, x ≤ cum.length) := by
  intro cum armv sp off idx arm n
  exact ⟨advance_ge cum armv idx, advance_le_length cum armv idx,
    susWalk_chain cum sp off n arm idx, fun h => susWalk_le_length cum sp off n arm idx h⟩

/-- Witness for C10 at a concrete input. -/
theorem c10_cursor_safety_witness :
    (0 : Nat) ≤ [F.finite 1].length ∧
      advance [F.finite 1] (F.finite 0) 0 ≤ [F.finite 1].length := by
  refine ⟨by norm_num, ?_⟩
  exact (c10_cursor_safety [F.finite 1] (F.finite 0) (F.finite 0) (F.finite 0) 0 0 1).2.1
    (by norm_num)

/-- C2 counterexample: at uniform draw `u = 0` (a value `rng.gen::<f64>()`
can return) the comb pointers land exactly on the cumulative boundaries,
the strict `weights[idx] < arm` does not advance the cursor, and the
multiset for `amount = 3`, weights `[1,1,1]` is `{0,0,1}`, not `{0,1,2}`. -/
theorem c2_round_robin_counterexample :
    choose_multiple_weighted idRng () 3 [F.finite 1, F.finite 1, F.finite 1]
      = .ok ([0, 0, 1], ()) ∧ ¬ ([0, 0, 1] : List Nat).Perm [0, 1, 2] := by
  constructor
  · norm_num [choose_multiple_weighted, choose_multiple, cumsum, cumsumFrom, fadd, fle, fmul,
      fdiv, flt, epsF, susWalk, advance, advanceAux, idRng, cmLoop, F.isFinite]
  · decide

/-- C2 amended: round-robin exactness holds for every uniform draw `u` with
`2^-51 < u < 1`.  On that range every comparison in the f64 walk has the
same outcome as in exact arithmetic (the spacings `1` and `1/2` and the
offset are exact; only the pointer additions round, and a rounded pointer
can fall back onto a cumulative boundary only when `u ≤ 2^-51`, by
round-to-nearest ties-to-even), so the exact embedding is faithful here.
Each excluded draw `u = m / 2^53`, `m ≤ 4`, makes the compiled program
produce the `u = 0` multiset for at least one of the two amounts. -/
theorem c2_round_robin_amended :
    ∀ (σ : Type) (rm : RngModel σ) (s : σ), (1 : ℚ) / 2 ^ 51 < (rm.genF s).1 →
      (∃ res s2, choose_multiple_weighted rm s 3 [F.finite 1, F.finite 1, F.finite 1]
        = .ok (res, s2) ∧ res.Perm [0, 1, 2]) ∧
      (∃ res s2, choose_multiple_weighted rm s 6 [F.finite 1, F.finite 1, F.finite 1]
        = .ok (res, s2) ∧ res.Perm [0, 0, 1, 1, 2, 2]) := by
  intro σ rm s hugt
  have hu : 0 < (rm.genF s).1 := lt_trans (by positivity) hugt
  have hu1 := rm.genF_lt_one s
  have hcum : cumsum [F.finite 1, F.finite 1, F.finite 1]
      = [F.finite 1, F.finite 2, F.finite 3] := by
    norm_num [cumsum, cumsumFrom, fadd]
  have hlne : ¬ ([F.finite 1, F.finite 1, F.finite 1] : List F).length = 0 := by norm_num
  have htot : (cumsum [F.finite 1, F.finite 1, F.finite 1]).getLastD (F.finite 0)
      = F.finite 3 := by rw [hcum]; rfl
  have hlen : (((cumsum [F.finite 1, F.finite 1, F.finite 1]).length : ℚ)) = 3 := by
    rw [hcum]; norm_num
  have hz : ¬ fle ((cumsum [F.finite 1, F.finite 1, F.finite 1]).getLastD (F.finite 0))
      (fmul epsF (F.finite ((cumsum [F.finite 1, F.finite 1, F.finite 1]).length : ℚ)))
        = true := by
    rw [htot, hlen, epsF, fmul_finite, fle_finite]
    norm_num
  have hfint : ((cumsum [F.finite 1, F.finite 1, F.finite 1]).getLastD (F.finite 0)).isFinite
      = true := by rw [htot]; rfl
  have a1 : ¬ (1 : ℚ) < (rm.genF s).1 := by linarith
  have a2 : ¬ (2 : ℚ) < (rm.genF s).1 := by linarith
  have a3 : ¬ (3 : ℚ) < (rm.genF s).1 := by linarith
  constructor
  · have heq := cmw_walk_eq rm s 3 [F.finite 1, F.finite 1, F.finite 1]
      (by norm_num) hlne hz hfint
    rw [htot, hcum] at heq
    have hsp : fdiv (F.finite 3) (F.finite ((3 : Nat) : ℚ)) = F.finite 1 := by
      norm_num [fdiv]
    rw [hsp, fmul_finite] at heq
    have b1 : (1 : ℚ) < 1 + (rm.genF s).1 := by linarith
    have b2 : ¬ (2 : ℚ) < 1 + (rm.genF s).1 := by linarith
    have b3 : ¬ (3 : ℚ) < 1 + (rm.genF s).1 := by linarith
    have d1 : (1 : ℚ) < 2 + (rm.genF s).1 := by linarith
    have d2 : (2 : ℚ) < 2 + (rm.genF s).1 := by linarith
    have d3 : ¬ (3 : ℚ) < 2 + (rm.genF s).1 := by linarith
    have hwalk : susWalk [F.finite 1, F.finite 2, F.finite 3] (F.finite 1)
        (F.finite ((rm.genF s).1 * 1)) 0 0 3 = [0, 1, 2] := by
      norm_num [susWalk, advance, advanceAux, fadd, fmul, flt, hu, hu1, a1, a2, a3,
        b1, b2, b3, d1, d2, d3]
    rw [hwalk] at heq
    exact ⟨(rm.shuffle [0, 1, 2] (rm.genF s).2).1, (rm.shuffle [0, 1, 2] (rm.genF s).2).2,
      heq, rm.shuffle_perm [0, 1, 2] (rm.genF s).2⟩
  · have heq := cmw_walk_eq rm s 6 [F.finite 1, F.finite 1, F.finite 1]
      (by norm_num) hlne hz hfint
    rw [htot, hcum] at heq
    have hsp : fdiv (F.finite 3) (F.finite ((6 : Nat) : ℚ)) = F.finite (1/2) := by
      norm_num [fdiv]
    rw [hsp, fmul_finite] at heq
    have b1 : ¬ (1 : ℚ) < (rm.genF s).1 * (1/2) := by linarith
    have b2 : ¬ (2 : ℚ) < (rm.genF s).1 * (1/2) := by linarith
    have b3 : ¬ (3 : ℚ) < (rm.genF s).1 * (1/2) := by linarith
    have d1 : ¬ (1 : ℚ) < 1/2 + (rm.genF s).1 * (1/2) := by linarith
    have d2 : ¬ (2 : ℚ) < 1/2 + (rm.genF s).1 * (1/2) := by linarith
    have d3 : ¬ (3 : ℚ) < 1/2 + (rm.genF s).1 * (1/2) := by linarith
    have e1 : (1 : ℚ) < 1 + (rm.genF s).1 * (1/2) := by linarith
    have e2 : ¬ (2 : ℚ) < 1 + (rm.genF s).1 * (1/2) := by linarith
    have e3 : ¬ (3 : ℚ) < 1 + (rm.genF s).1 * (1/2) := by linarith
    have f1 : (1 : ℚ) < 3/2 + (rm.genF s).1 * (1/2) := by linarith
    have f2 : ¬ (2 : ℚ) < 3/2 + (rm.genF s).1 * (1/2) := by linarith
    have f3 : ¬ (3 : ℚ) < 3/2 + (rm.genF s).1 * (1/2) := by linarith
    have g1 : (1 : ℚ) < 2 + (rm.genF s).1 * (1/2) := by linarith
    have g2 : (2 : ℚ) < 2 + (rm.genF s).1 * (1/2) := by linarith
    have g3 : ¬ (3 : ℚ) < 2 + (rm.genF s).1 * (1/2) := by linarith
    have j1 : (1 : ℚ) < 5/2 + (rm.genF s).1 * (1/2) := by linarith
    have j2 : (2 : ℚ) < 5/2 + (rm.genF s).1 * (1/2) := by linarith
    have j3 : ¬ (3 : ℚ) < 5/2 + (rm.genF s).1 * (1/2) := by linarith
    have hwalk : susWalk [F.finite 1, F.finite 2, F.finite 3] (F.finite (1/2))
        (F.finite ((rm.genF s).1 * (1/2))) 0 0 6 = [0, 0, 1, 1, 2, 2] := by
      norm_num [susWalk, advance, advanceAux, fadd, fmul, flt, hu, hu1, a1, a2, a3,
        b1, b2, b3, d1, d2, d3, e1, e2, e3, f1, f2, f3, g1, g2, g3, j1, j2, j3]
    rw [hwalk] at heq
    exact ⟨(rm.shuffle [0, 0, 1, 1, 2, 2] (rm.genF s).2).1,
      (rm.shuffle [0, 0, 1, 1, 2, 2] (rm.genF s).2).2,
      heq, rm.shuffle_perm [0, 0, 1, 1, 2, 2] (rm.genF s).2⟩

/-- Witness for the amended C2 at the concrete draw `u = 1/2`. -/
theorem c2_round_robin_amended_witness :
    (1 : ℚ) / 2 ^ 51 < (halfRng.genF ()).1 ∧
    (∃ res s2, choose_multiple_weighted halfRng () 3 [F.finite 1, F.finite 1, F.finite 1]
      = .ok (res, s2) ∧ res.Perm [0, 1, 2]) := by
  have h : (1 : ℚ) / 2 ^ 51 < (halfRng.genF ()).1 := by norm_num [halfRng]
  exact ⟨h, (c2_round_robin_amended Unit halfRng () h).1⟩

/-- A weight vector with a single positive entry `w` at position `k`,
surrounded by `k` and `m` zero weights. -/
def oneHot (k : Nat) (w : ℚ) (m : Nat) : List F :=
  List.replicate k (F.finite 0) ++ F.finite w :: List.replicate m (F.finite 0)

theorem cumsumFrom_replicate_zero (q : ℚ) :
    ∀ (k : Nat) (rest : List F),
      cumsumFrom (F.finite q) (List.replicate k (F.finite 0) ++ rest)
        = List.replicate k (F.finite q) ++ cumsumFrom (F.finite q) rest := by
  intro k
  induction k with
  | zero => intro rest; simp
  | succ k ih =>
    intro rest
    rw [List.replicate_succ, List.cons_append, cumsumFrom, fadd_finite, add_zero,
      List.replicate_succ, List.cons_append, ih]

theorem cumsum_oneHot (k m : Nat) (w : ℚ) :
    cumsum (oneHot k w m)
      = List.replicate k (F.finite 0) ++ F.finite w :: List.replicate m (F.finite w) := by
  unfold cumsum oneHot
  rw [cumsumFrom_replicate_zero, cumsumFrom, fadd_finite, zero_add]
  congr 2
  have := cumsumFrom_replicate_zero w m []
  simpa [cumsumFrom] using this

theorem getLastD_replicate_self (a : F) : ∀ m : Nat, (List.replicate m a).getLastD a = a := by
  intro m
  induction m with
  | zero => rfl
  | succ m ih => rw [List.replicate_succ, List.getLastD_cons, ih]

theorem getLastD_oneHot_cumsum (w : ℚ) (m : Nat) :
    ∀ (k : Nat) (d : F),
      (List.replicate k (F.finite 0) ++ F.finite w :: List.replicate m (F.finite w)).getLastD d
        = F.finite w := by
  intro k
  induction k with
  | zero =>
    intro d
    rw [List.replicate, List.nil_append, List.getLastD_cons, getLastD_replicate_self]
  | succ k ih =>
    intro d
    rw [List.replicate_succ, List.cons_append, List.getLastD_cons, ih]

example : cumsum (oneHot 2 5 3)
    = [F.finite 0, F.finite 0, F.finite 5, F.finite 5, F.finite 5, F.finite 5] := by
  rw [cumsum_oneHot]
  norm_num [List.replicate]

theorem advance_oneHot (k m : Nat) (w v : ℚ) (hv : 0 < v) (hvw : ¬ w < v) :
    advance (List.replicate k (F.finite 0) ++ F.finite w :: List.replicate m (F.finite w))
      (F.finite v) 0 = k := by
  apply advance_spec
  · simp
  · intro h
    have hget : (List.replicate k (F.finite 0)
        ++ F.finite w :: List.replicate m (F.finite w)).get ⟨k, h⟩ = F.finite w := by
      rw [List.get_eq_getElem,
        List.getElem_append_right (by simp : (List.replicate k (F.finite 0)).length ≤ k)]
      simp
    rw [hget, flt_finite]
    exact decide_eq_false hvw
  · exact Nat.zero_le k
  · intro i hi _ hik
    have hget : (List.replicate k (F.finite 0)
        ++ F.finite w :: List.replicate m (F.finite w)).get ⟨i, hi⟩ = F.finite 0 := by
      rw [List.get_eq_getElem,
        List.getElem_append_left (by simp; omega), List.getElem_replicate]
    rw [hget, flt_finite]
    exact decide_eq_true hv

/-- In the one-positive-weight case with the threshold test failing,
`choose_multiple_weighted` with `amount = 1` is one cursor advance with arm
pointer `u * w`, then a shuffle of the singleton. -/
theorem cmw_oneHot_walk {σ : Type} (rm : RngModel σ) (s : σ) (k m : Nat) (w : ℚ)
    (hz : ¬ fle ((cumsum (oneHot k w m)).getLastD (F.finite 0))
      (fmul epsF (F.finite ((cumsum (oneHot k w m)).length : ℚ))) = true) :
    choose_multiple_weighted rm s 1 (oneHot k w m)
      = .ok (rm.shuffle
          [advance (List.replicate k (F.finite 0) ++ F.finite w :: List.replicate m (F.finite w))
            (F.finite ((rm.genF s).1 * w)) 0]
          (rm.genF s).2) := by
  have htot : (cumsum (oneHot k w m)).getLastD (F.finite 0) = F.finite w := by
    rw [cumsum_oneHot]
    exact getLastD_oneHot_cumsum w m k _
  have hlne : ¬ (oneHot k w m).length = 0 := by simp [oneHot]
  have hfint : ((cumsum (oneHot k w m)).getLastD (F.finite 0)).isFinite = true := by
    rw [htot]; rfl
  have heq := cmw_walk_eq rm s 1 (oneHot k w m) (by norm_num) hlne hz hfint
  rw [htot] at heq
  have hsp : fdiv (F.finite w) (F.finite ((1 : Nat) : ℚ)) = F.finite w := by
    rw [fdiv_finite w _ (by norm_num)]
    norm_num
  rw [hsp, fmul_finite, cumsum_oneHot] at heq
  rw [heq]
  have harm : fadd (fmul (F.finite ((0 : Nat) : ℚ)) (F.finite w)) (F.finite ((rm.genF s).1 * w))
      = F.finite ((rm.genF s).1 * w) := by
    rw [fmul_finite, fadd_finite]
    norm_num
  simp only [susWalk, harm]

/-- C3 amended: sharp selection holds for every uniform draw in `(0, 1)`. -/
theorem c3_sharp_selection_amended :
    ∀ (σ : Type) (rm : RngModel σ) (s : σ) (k m : Nat) (w : ℚ),
      k + 1 + m = 10000 → (1 : ℚ) / 2 ^ 52 * 10000 < w → 0 < (rm.genF s).1 →
      ∃ res s2, choose_multiple_weighted rm s 1 (oneHot k w m) = .ok (res, s2) ∧ res = [k] := by
  intro σ rm s k m w hN hw hu
  have hu1 := rm.genF_lt_one s
  have hwpos : 0 < w := lt_trans (by positivity) hw
  have hlenN : (cumsum (oneHot k w m)).length = 10000 := by
    rw [cumsum_length]
    simp [oneHot]
    omega
  have hz : ¬ fle ((cumsum (oneHot k w m)).getLastD (F.finite 0))
      (fmul epsF (F.finite ((cumsum (oneHot k w m)).length : ℚ))) = true := by
    have htot : (cumsum (oneHot k w m)).getLastD (F.finite 0) = F.finite w := by
      rw [cumsum_oneHot]
      exact getLastD_oneHot_cumsum w m k _
    rw [htot, hlenN, epsF, fmul_finite, fle_finite]
    simp only [decide_eq_true_eq, Nat.cast_ofNat]
    intro hle
    linarith
  have heq := cmw_oneHot_walk rm s k m w hz
  have hadv : advance (List.replicate k (F.finite 0) ++ F.finite w :: List.replicate m (F.finite w))
      (F.finite ((rm.genF s).1 * w)) 0 = k := by
    apply advance_oneHot
    · exact mul_pos hu hwpos
    · intro hlt
      nlinarith
  rw [hadv] at heq
  exact ⟨(rm.shuffle [k] (rm.genF s).2).1, (rm.shuffle [k] (rm.genF s).2).2, heq,
    List.perm_singleton.mp (rm.shuffle_perm [k] (rm.genF s).2)⟩

/-- Witness for the amended C3 at a concrete input. -/
theorem c3_sharp_selection_amended_witness :
    (1234 + 1 + 8765 = 10000) ∧
    (∃ res s2, choose_multiple_weighted halfRng () 1 (oneHot 1234 ((1 : ℚ) / 10 ^ 7) 8765)
      = .ok (res, s2) ∧ res = [1234]) := by
  refine ⟨by norm_num, ?_⟩
  exact c3_sharp_selection_amended Unit halfRng () 1234 8765 ((1 : ℚ) / 10 ^ 7)
    (by norm_num) (by norm_num) (by norm_num [halfRng])

/-- C3 counterexample: at uniform draw `u = 0` the walk returns index `0`,
not the hot index `1234`. -/
theorem c3_sharp_selection_counterexample :
    choose_multiple_weighted idRng () 1 (oneHot 1234 ((1 : ℚ) / 10 ^ 7) 8765)
      = .ok ([0], ()) ∧ ([0] : List Nat) ≠ [1234] := by
  constructor
  · have hlenN : (cumsum (oneHot 1234 ((1 : ℚ) / 10 ^ 7) 8765)).length = 10000 := by
      rw [cumsum_length]
      unfold oneHot
      rw [List.length_append, List.length_replicate, List.length_cons, List.length_replicate]
    have hz : ¬ fle ((cumsum (oneHot 1234 ((1 : ℚ) / 10 ^ 7) 8765)).getLastD (F.finite 0))
        (fmul epsF (F.finite ((cumsum (oneHot 1234 ((1 : ℚ) / 10 ^ 7) 8765)).length : ℚ)))
          = true := by
      have htot : (cumsum (oneHot 1234 ((1 : ℚ) / 10 ^ 7) 8765)).getLastD (F.finite 0)
          = F.finite ((1 : ℚ) / 10 ^ 7) := by
        rw [cumsum_oneHot]
        exact getLastD_oneHot_cumsum ((1 : ℚ) / 10 ^ 7) 8765 1234 _
      rw [htot, hlenN, epsF, fmul_finite, fle_finite]
      norm_num
    have heq := cmw_oneHot_walk idRng () 1234 8765 ((1 : ℚ) / 10 ^ 7) hz
    have hadv : advance (List.replicate 1234 (F.finite 0)
        ++ F.finite ((1 : ℚ) / 10 ^ 7) :: List.replicate 8765 (F.finite ((1 : ℚ) / 10 ^ 7)))
        (F.finite ((idRng.genF ()).1 * ((1 : ℚ) / 10 ^ 7))) 0 = 0 := by
      apply advance_spec
      · exact Nat.zero_le _
      · intro h
        have hget : (List.replicate 1234 (F.finite 0)
            ++ F.finite ((1 : ℚ) / 10 ^ 7)
              :: List.replicate 8765 (F.finite ((1 : ℚ) / 10 ^ 7))).get ⟨0, h⟩
            = F.finite 0 := by
          rw [List.get_eq_getElem,
            List.getElem_append_left (by rw [List.length_replicate]; norm_num),
            List.getElem_replicate]
        rw [hget, flt_finite]
        apply decide_eq_false
        norm_num [idRng]
      · exact Nat.le_refl 0
      · intro i _ h1 h2
        omega
    rw [hadv] at heq
    exact heq
  · decide
